import Mathlib

/-!
Verification of the `primality-test` crate: a shallow embedding of its
Montgomery modular-arithmetic engine (`src/montgomery.rs`), its linear
sieve (`src/sieve.rs`), the trait-based Miller–Rabin primality tests
(`src/lib.rs`) and the standalone const test (`src/constfn.rs`),
together with proofs about them.

Machine integers of width `W` are modelled as natural numbers together
with explicit reductions `% 2 ^ W` wherever the Rust code wraps or
truncates.  `while` loops whose termination is data-dependent are
modelled with an explicit fuel parameter that is provably sufficient;
the theorems below include certificates that the corresponding exit
conditions are in fact reached within the allotted fuel.
-/

namespace PrimalityTest

/-- The Montgomery context of `src/montgomery.rs`: field for field the
struct `Montgomery<T>` (`modulo`, `modulo_inv`, `r`, `r2`). -/
structure Montgomery where
  modulo : ℕ
  modulo_inv : ℕ
  r : ℕ
  r2 : ℕ

/-- One update of the Newton iteration in `Montgomery::new`:
`inv.wrapping_mul(2.wrapping_sub(modulo.wrapping_mul(inv)))` at width `W`. -/
def newtonStep (W N inv : ℕ) : ℕ :=
  inv * ((2 ^ W + 2 - N * inv % 2 ^ W) % 2 ^ W) % 2 ^ W

/-- The `while modulo.wrapping_mul(inv) != 1` loop of `Montgomery::new`,
with fuel.  Fuel `W` is sufficient for every odd modulus (see
`newtonInv_exit`). -/
def newtonInvGo (W N : ℕ) : ℕ → ℕ → ℕ
  | 0, inv => inv
  | fuel + 1, inv =>
    if N * inv % 2 ^ W = 1 then inv else newtonInvGo W N fuel (newtonStep W N inv)

/-- `Montgomery::new` for width `W`: `r = (1 << W) % N` (computed in the
double-width type), `r2 = N.wrapping_neg() % N` (double width), and
`modulo_inv` from the Newton iteration started at `inv = N`. -/
def Montgomery.new (W N : ℕ) : Montgomery :=
  { modulo := N
    modulo_inv := newtonInvGo W N W N
    r := 2 ^ W % N
    r2 := (2 ^ (2 * W) - N) % 2 ^ (2 * W) % N }

/-- `Montgomery::multiply` for width `W`: the double-width product, the
Montgomery reduction using `modulo_inv`, the `overflowing_sub` of the
high halves and the final conditional correction, with every Rust cast
and wrap made explicit as `% 2 ^ W` or `% 2 ^ (2 * W)`. -/
def Montgomery.multiply (W : ℕ) (c : Montgomery) (lhs rhs : ℕ) : ℕ :=
  let a := lhs * rhs
  let m := a % 2 ^ W * c.modulo_inv % 2 ^ W
  let hi1 := a / 2 ^ W % 2 ^ W
  let hi2 := m * c.modulo % 2 ^ (2 * W) / 2 ^ W % 2 ^ W
  let t := (2 ^ W + hi1 - hi2) % 2 ^ W
  (t + if hi1 < hi2 then c.modulo else 0) % 2 ^ W

/-- `Montgomery::convert`: multiplication by `r2`. -/
def Montgomery.convert (W : ℕ) (c : Montgomery) (val : ℕ) : ℕ :=
  Montgomery.multiply W c val c.r2

/-- The body of the binary-exponentiation loop of `Montgomery::pow`,
with fuel; fuel `W` is sufficient for every exponent below `2 ^ W`. -/
def powAux (W : ℕ) (c : Montgomery) : ℕ → ℕ → ℕ → ℕ → ℕ
  | 0, res, _, _ => res
  | fuel + 1, res, val, exp =>
    if exp = 0 then res
    else
      powAux W c fuel (if exp % 2 = 1 then Montgomery.multiply W c res val else res)
        (Montgomery.multiply W c val val) (exp / 2)

/-- `Montgomery::pow`: binary exponentiation with accumulator initialised
to `r` (the Montgomery form of `1`). -/
def Montgomery.pow (W : ℕ) (c : Montgomery) (val exp : ℕ) : ℕ :=
  powAux W c W c.r val exp

/-- Count of trailing zero bits of a positive number, with fuel; fuel `W`
is sufficient for numbers below `2 ^ W`. -/
def ctzGo : ℕ → ℕ → ℕ
  | 0, _ => 0
  | fuel + 1, n => if n % 2 = 1 ∨ n = 0 then 0 else ctzGo fuel (n / 2) + 1

/-- Rust `n.trailing_zeros()` at width `W` (`W` for `n = 0`). -/
def ctzW (W n : ℕ) : ℕ :=
  if n = 0 then W else ctzGo W n

/-- The squaring phase of one Miller–Rabin witness round: square `x` up
to `count` times, succeeding as soon as some intermediate equals `p - r`
(the Montgomery form of `-1`).  In `src/lib.rs` this is the
`(1..s).scan(at, ..).any(..)` chain, in `src/constfn.rs` the
`while j < s && !found` loop; both perform at most `s - 1` squarings and
stop at the first hit. -/
def squareLoop (W : ℕ) (c : Montgomery) (p : ℕ) : ℕ → ℕ → Bool
  | 0, _ => false
  | count + 1, x =>
    let x2 := Montgomery.multiply W c x x
    if x2 = p - c.r then true else squareLoop W c p count x2

/-- One Miller–Rabin witness round for witness `a` (already in ordinary
residue form): convert to Montgomery form, raise to the odd part `t`,
accept on `r` or `p - r`, otherwise run the squaring phase. -/
def witnessCheck (W : ℕ) (c : Montgomery) (p s t a : ℕ) : Bool :=
  let aM := Montgomery.convert W c a
  let x := Montgomery.pow W c aM t
  if x = c.r ∨ x = p - c.r then true
  else squareLoop W c p (s - 1) x

/-- The general (Montgomery-based) case of `IsPrime::is_prime` in
`src/lib.rs`: build the context, split `p - 1 = t * 2 ^ s`, and require
every witness of the width's table to pass.  The witnesses are used
as-is: the `.map(|&a| a % p).filter(|&a| a != 0)` lines are commented
out in the source. -/
def mrGeneral (W : ℕ) (ws : List ℕ) (p : ℕ) : Bool :=
  let c := Montgomery.new W p
  let s := ctzW W (p - 1)
  let t := (p - 1) / 2 ^ s
  ws.all fun a => witnessCheck W c p s t a

/-- The general case with each witness first reduced `mod p` and a zero
reduction skipped, exactly as in `src/constfn.rs`
(`let a = WIT[i] % p; if a != 0 { .. }`) and as described by the spec's
"reduce `a` mod `p`; if the reduced witness is `0`, skip it". -/
def mrGeneralReduced (W : ℕ) (ws : List ℕ) (p : ℕ) : Bool :=
  let c := Montgomery.new W p
  let s := ctzW W (p - 1)
  let t := (p - 1) / 2 ^ s
  ws.all fun a => if a % p = 0 then true else witnessCheck W c p s t (a % p)

/-- `usize::MAX` on the 64-bit targets the crate is built for. -/
def usizeMax : ℕ := 2 ^ 64 - 1

/-- The inner `while j < pc && primes[j] <= arr[i] && primes[j].saturating_mul(i) < LEN`
loop of `LinearSieve::new`, walking the recorded primes in order and
marking `arr[primes[j] * i] = primes[j]`. -/
def innerLoop (LEN i : ℕ) : List ℕ → List ℕ → List ℕ
  | [], arr => arr
  | p :: ps, arr =>
    if p ≤ arr.getD i 0 ∧ min (p * i) usizeMax < LEN then
      innerLoop LEN i ps (arr.set (p * i) p)
    else arr

/-- The outer `while i < LEN` loop of `LinearSieve::new`, with fuel;
fuel `LEN` is sufficient since `i` starts at `2`. -/
def sieveGo (LEN : ℕ) : ℕ → ℕ → List ℕ → List ℕ → List ℕ
  | 0, _, _, arr => arr
  | fuel + 1, i, primes, arr =>
    if i < LEN then
      if arr.getD i 0 = usizeMax then
        sieveGo LEN fuel (i + 1) (primes ++ [i]) (innerLoop LEN i (primes ++ [i]) (arr.set i i))
      else sieveGo LEN fuel (i + 1) primes (innerLoop LEN i primes arr)
    else arr

/-- The array built by `LinearSieve::<LEN>::new()`: start from
`[usize::MAX; LEN]` and run the sieve from `i = 2`. -/
def sieveNew (LEN : ℕ) : List ℕ :=
  sieveGo LEN LEN 2 [] (List.replicate LEN usizeMax)

/-- `LinearSieve::is_prime`: `self.arr[value] == value` (callers
guarantee `value < LEN`). -/
def sieveIsPrime (LEN value : ℕ) : Bool :=
  (sieveNew LEN).getD value 0 == value

/-- The iterator body of `LinearSieve::factors`, with fuel: while
`value > 1`, emit `arr[value]` and divide `value` by it.  Fuel `value`
is sufficient whenever the sieve invariant holds. -/
def factorsGo (arr : List ℕ) : ℕ → ℕ → List ℕ
  | 0, _ => []
  | fuel + 1, value =>
    if 1 < value then arr.getD value 0 :: factorsGo arr fuel (value / arr.getD value 0)
    else []

/-- The full sequence produced by `LinearSieve::<LEN>::factors(value)`. -/
def factors (LEN value : ℕ) : List ℕ :=
  factorsGo (sieveNew LEN) value value

/-- The witness table shared by the `u8`, `u16` and `u32`
implementations. -/
def wit32 : List ℕ := [2, 7, 61]

/-- The witness table of the `u64` implementation and of the const
`is_prime`. -/
def wit64 : List ℕ := [2, 325, 9375, 28178, 450775, 9780504, 1795265022]

/-- `<u8 as IsPrime>::is_prime` from `src/lib.rs`: trivial filter, then
the `LinearSieve<255>` table (`SMALL_PRIMES_MEMO`) for `p < 255`, then
the general Miller–Rabin case at width 8. -/
def isPrimeU8 (p : ℕ) : Bool :=
  if p = 1 ∨ p % 2 = 0 then p == 2
  else if p < 255 then sieveIsPrime 255 p
  else mrGeneral 8 wit32 p

/-- `<u16 as IsPrime>::is_prime`. -/
def isPrimeU16 (p : ℕ) : Bool :=
  if p = 1 ∨ p % 2 = 0 then p == 2
  else if p < 255 then sieveIsPrime 255 p
  else mrGeneral 16 wit32 p

/-- `<u32 as IsPrime>::is_prime`. -/
def isPrimeU32 (p : ℕ) : Bool :=
  if p = 1 ∨ p % 2 = 0 then p == 2
  else if p < 255 then sieveIsPrime 255 p
  else mrGeneral 32 wit32 p

/-- `<u64 as IsPrime>::is_prime`: additionally cascades values below
`1795265022` to the `u32` implementation before the sieve shortcut. -/
def isPrimeU64 (p : ℕ) : Bool :=
  if p = 1 ∨ p % 2 = 0 then p == 2
  else if p < 1795265022 then isPrimeU32 p
  else if p < 255 then sieveIsPrime 255 p
  else mrGeneral 64 wit64 p

/-- Variant of `isPrimeU8` whose general case reduces each witness
`mod p` and skips zero reductions (the processing the specification
ascribes to every implementation). -/
def isPrimeU8R (p : ℕ) : Bool :=
  if p = 1 ∨ p % 2 = 0 then p == 2
  else if p < 255 then sieveIsPrime 255 p
  else mrGeneralReduced 8 wit32 p

/-- Variant of `isPrimeU16` with reduced-and-skipped witnesses. -/
def isPrimeU16R (p : ℕ) : Bool :=
  if p = 1 ∨ p % 2 = 0 then p == 2
  else if p < 255 then sieveIsPrime 255 p
  else mrGeneralReduced 16 wit32 p

/-- Variant of `isPrimeU32` with reduced-and-skipped witnesses. -/
def isPrimeU32R (p : ℕ) : Bool :=
  if p = 1 ∨ p % 2 = 0 then p == 2
  else if p < 255 then sieveIsPrime 255 p
  else mrGeneralReduced 32 wit32 p

/-- Variant of `isPrimeU64` with reduced-and-skipped witnesses (the
cascade accordingly lands in `isPrimeU32R`). -/
def isPrimeU64R (p : ℕ) : Bool :=
  if p = 1 ∨ p % 2 = 0 then p == 2
  else if p < 1795265022 then isPrimeU32R p
  else if p < 255 then sieveIsPrime 255 p
  else mrGeneralReduced 64 wit64 p

/-- The standalone `pub const fn is_prime(p: u64)` of `src/constfn.rs`:
trivial filter, then the general case at width 64 with each witness
reduced `mod p` and zero reductions skipped. -/
def constIsPrime (p : ℕ) : Bool :=
  if p = 1 ∨ p % 2 = 0 then p == 2
  else mrGeneralReduced 64 wit64 p

/-- Proof-level abstraction: the primes below `n`, in increasing order,
as recorded by the sieve's `primes` array. -/
def primesList (n : ℕ) : List ℕ :=
  (List.range n).filter fun x => decide x.Prime

/-- Proof-level abstraction: the set of indices whose sieve entry has
been written after the outer loop has completed the iterations below
`i`: primes below `i`, and composites `m` whose cofactor `m / lpf m`
is below `i`. -/
def marked (i m : ℕ) : Prop :=
  (m.Prime ∧ m < i) ∨ (2 ≤ m ∧ ¬m.Prime ∧ m / m.minFac < i)

/-! ### The Newton iteration of `Montgomery::new` -/

theorem cast_mod_modEq (x R : ℕ) : ((x % R : ℕ) : ℤ) ≡ (x : ℤ) [ZMOD (R : ℤ)] :=
  Int.natCast_modEq_iff.mpr (Nat.mod_modEq x R)

theorem two_pow_cast (W : ℕ) : ((2 ^ W : ℕ) : ℤ) = (2 : ℤ) ^ W := by push_cast; ring

theorem newtonStep_modEq (W N inv : ℕ) :
    (newtonStep W N inv : ℤ) ≡ (inv : ℤ) * (2 - (N : ℤ) * inv) [ZMOD ((2 ^ W : ℕ) : ℤ)] := by
  have hle : N * inv % 2 ^ W ≤ 2 ^ W + 2 := by
    have h : N * inv % 2 ^ W < 2 ^ W := Nat.mod_lt _ (by positivity)
    omega
  calc (newtonStep W N inv : ℤ)
      ≡ ((inv * ((2 ^ W + 2 - N * inv % 2 ^ W) % 2 ^ W) : ℕ) : ℤ)
        [ZMOD ((2 ^ W : ℕ) : ℤ)] := cast_mod_modEq _ _
    _ = (inv : ℤ) * (((2 ^ W + 2 - N * inv % 2 ^ W) % 2 ^ W : ℕ) : ℤ) := by push_cast; ring
    _ ≡ (inv : ℤ) * ((2 ^ W + 2 - N * inv % 2 ^ W : ℕ) : ℤ)
        [ZMOD ((2 ^ W : ℕ) : ℤ)] := (cast_mod_modEq _ _).mul_left _
    _ = (inv : ℤ) * (((2 ^ W + 2 : ℕ) : ℤ) - ((N * inv % 2 ^ W : ℕ) : ℤ)) := by
        rw [Nat.cast_sub hle]
    _ ≡ (inv : ℤ) * (((2 ^ W + 2 : ℕ) : ℤ) - (N : ℤ) * inv) [ZMOD ((2 ^ W : ℕ) : ℤ)] := by
        refine Int.ModEq.mul_left _ (Int.ModEq.sub_left _ ?_)
        have := cast_mod_modEq (N * inv) (2 ^ W)
        push_cast at this ⊢
        exact this
    _ ≡ (inv : ℤ) * ((0 : ℤ) + 2 - (N : ℤ) * inv) [ZMOD ((2 ^ W : ℕ) : ℤ)] := by
        refine Int.ModEq.mul_left _ (Int.ModEq.sub_right _ ?_)
        have hcast : ((2 ^ W + 2 : ℕ) : ℤ) = ((2 ^ W : ℕ) : ℤ) + 2 := by push_cast; ring
        rw [hcast]
        exact Int.ModEq.add_right 2 (Int.modEq_zero_iff_dvd.mpr dvd_rfl)
    _ = (inv : ℤ) * (2 - (N : ℤ) * inv) := by ring

theorem newtonStep_sq {W N inv k : ℕ} (h : ((N : ℤ) * inv) ≡ 1 [ZMOD (2 : ℤ) ^ k]) :
    (N : ℤ) * newtonStep W N inv ≡ 1 [ZMOD (2 : ℤ) ^ min (2 * k) W] := by
  have h1 : (N : ℤ) * newtonStep W N inv ≡ (N : ℤ) * ((inv : ℤ) * (2 - (N : ℤ) * inv))
      [ZMOD (2 : ℤ) ^ W] := by
    have := (newtonStep_modEq W N inv).mul_left (N : ℤ)
    rwa [two_pow_cast] at this
  have hid : (N : ℤ) * ((inv : ℤ) * (2 - (N : ℤ) * inv))
      = 1 - (1 - (N : ℤ) * inv) ^ 2 := by ring
  have h2 : (1 - (N : ℤ) * inv) ^ 2 ≡ 0 [ZMOD (2 : ℤ) ^ (2 * k)] := by
    have hd : (2 : ℤ) ^ k ∣ 1 - (N : ℤ) * inv := (Int.ModEq.dvd h)
    have hdd : (2 : ℤ) ^ (2 * k) ∣ (1 - (N : ℤ) * inv) ^ 2 := by
      have h2 := pow_dvd_pow_of_dvd hd 2
      rwa [← pow_mul, mul_comm k 2] at h2
    exact (Int.modEq_zero_iff_dvd).mpr hdd
  have h3 : (N : ℤ) * ((inv : ℤ) * (2 - (N : ℤ) * inv)) ≡ 1 [ZMOD (2 : ℤ) ^ (2 * k)] := by
    rw [hid]
    calc (1 : ℤ) - (1 - (N : ℤ) * inv) ^ 2
        ≡ 1 - 0 [ZMOD (2 : ℤ) ^ (2 * k)] := Int.ModEq.sub_left 1 h2
      _ = 1 := by ring
  have d1 : (2 : ℤ) ^ min (2 * k) W ∣ (2 : ℤ) ^ W := pow_dvd_pow 2 (min_le_right _ _)
  have d2 : (2 : ℤ) ^ min (2 * k) W ∣ (2 : ℤ) ^ (2 * k) := pow_dvd_pow 2 (min_le_left _ _)
  exact (h1.of_dvd d1).trans (h3.of_dvd d2)

theorem newton_cert_go (W N : ℕ) (hW : 0 < W) :
    ∀ fuel inv k : ℕ, 0 < k → ((N : ℤ) * inv) ≡ 1 [ZMOD (2 : ℤ) ^ k] → W ≤ 2 ^ fuel * k →
      ∃ j, j ≤ fuel ∧ N * (newtonStep W N)^[j] inv % 2 ^ W = 1 := by
  intro fuel
  induction fuel with
  | zero =>
    intro inv k hk h hfuel
    refine ⟨0, le_refl 0, ?_⟩
    simp only [Function.iterate_zero, id]
    have hWk : (2 : ℤ) ^ W ∣ (2 : ℤ) ^ k := pow_dvd_pow 2 (by simpa using hfuel)
    have h2 : ((N : ℤ) * (inv : ℤ)) ≡ 1 [ZMOD (2 : ℤ) ^ W] := h.of_dvd hWk
    have h3 : ((N * inv : ℕ) : ℤ) ≡ ((1 : ℕ) : ℤ) [ZMOD ((2 ^ W : ℕ) : ℤ)] := by
      rw [two_pow_cast]; push_cast; exact h2
    have h4 : N * inv % 2 ^ W = 1 % 2 ^ W := Int.natCast_modEq_iff.mp h3
    have h5 : 1 < 2 ^ W := by
      calc 1 < 2 ^ 1 := by norm_num
        _ ≤ 2 ^ W := Nat.pow_le_pow_right (by norm_num) hW
    rw [Nat.mod_eq_of_lt h5] at h4
    exact h4
  | succ fuel ih =>
    intro inv k hk h hfuel
    by_cases hc : N * inv % 2 ^ W = 1
    · exact ⟨0, Nat.zero_le _, by simpa using hc⟩
    · have hmin : 0 < min (2 * k) W := by
        have h2k : 0 < 2 * k := by omega
        omega
      have hstep : (N : ℤ) * newtonStep W N inv ≡ 1 [ZMOD (2 : ℤ) ^ min (2 * k) W] :=
        newtonStep_sq h
      have hfuel' : W ≤ 2 ^ fuel * min (2 * k) W := by
        rcases Nat.le_total (2 * k) W with hle | hle
        · rw [min_eq_left hle]
          calc W ≤ 2 ^ (fuel + 1) * k := hfuel
            _ = 2 ^ fuel * (2 * k) := by ring
        · rw [min_eq_right hle]
          have h1 : 1 ≤ 2 ^ fuel := Nat.one_le_two_pow
          calc W = 1 * W := (one_mul W).symm
            _ ≤ 2 ^ fuel * W := Nat.mul_le_mul_right W h1
      obtain ⟨j, hj, hcond⟩ := ih (newtonStep W N inv) (min (2 * k) W) hmin hstep hfuel'
      refine ⟨j + 1, by omega, ?_⟩
      rwa [Function.iterate_succ_apply]

theorem newton_cert (W N : ℕ) (hW : 0 < W) (hodd : N % 2 = 1) :
    ∃ j, j ≤ W ∧ N * (newtonStep W N)^[j] N % 2 ^ W = 1 := by
  have hbase : N * N % 8 = 1 % 8 := by
    have h8 : N % 8 = 1 ∨ N % 8 = 3 ∨ N % 8 = 5 ∨ N % 8 = 7 := by omega
    rw [Nat.mul_mod]
    rcases h8 with h | h | h | h <;> rw [h]
  have hbase' : ((N : ℤ) * N) ≡ 1 [ZMOD (2 : ℤ) ^ 3] := by
    have h3 : ((N * N : ℕ) : ℤ) ≡ ((1 : ℕ) : ℤ) [ZMOD ((8 : ℕ) : ℤ)] :=
      Int.natCast_modEq_iff.mpr hbase
    have h8 : ((8 : ℕ) : ℤ) = (2 : ℤ) ^ 3 := by norm_num
    rw [h8] at h3; push_cast at h3; exact h3
  have hfuel : W ≤ 2 ^ W * 3 := by
    have hlt := Nat.lt_two_pow W
    omega
  exact newton_cert_go W N hW W N 3 (by norm_num) hbase' hfuel

theorem newtonInvGo_exit (W N : ℕ) :
    ∀ fuel inv, (∃ j, j ≤ fuel ∧ N * (newtonStep W N)^[j] inv % 2 ^ W = 1) →
      N * newtonInvGo W N fuel inv % 2 ^ W = 1 := by
  intro fuel
  induction fuel with
  | zero =>
    intro inv h
    obtain ⟨j, hj, hcond⟩ := h
    have hj0 : j = 0 := by omega
    subst hj0
    simpa using hcond
  | succ fuel ih =>
    intro inv h
    obtain ⟨j, hj, hcond⟩ := h
    by_cases hc : N * inv % 2 ^ W = 1
    · rw [newtonInvGo, if_pos hc]; exact hc
    · rw [newtonInvGo, if_neg hc]
      rcases j with _ | j
      · simp at hcond; exact absurd hcond hc
      · rw [Function.iterate_succ_apply] at hcond
        exact ih (newtonStep W N inv) ⟨j, by omega, hcond⟩

/-- For every odd modulus the Newton loop of `Montgomery::new` reaches its
exit condition within its allotted fuel and delivers an inverse of the
modulus modulo `2 ^ W`. -/
theorem newtonInv_exit (W N : ℕ) (hW : 0 < W) (hodd : N % 2 = 1) :
    N * (Montgomery.new W N).modulo_inv % 2 ^ W = 1 :=
  newtonInvGo_exit W N W N (newton_cert W N hW hodd)

/-! ### Correctness of `Montgomery::multiply` (REDC) -/

theorem natMod_eq_of_int {a b n : ℕ} (h : (a : ℤ) ≡ (b : ℤ) [ZMOD (n : ℤ)]) :
    a % n = b % n :=
  Int.natCast_modEq_iff.mp h

theorem multiply_spec (W : ℕ) (c : Montgomery) (N lhs rhs : ℕ)
    (hmod : c.modulo = N) (hinv : N * c.modulo_inv % 2 ^ W = 1)
    (hN : 0 < N) (hNW : N < 2 ^ W) (hl : lhs < N) (hr : rhs < N) :
    Montgomery.multiply W c lhs rhs < N ∧
      Montgomery.multiply W c lhs rhs * 2 ^ W % N = lhs * rhs % N := by
  have hR : 0 < 2 ^ W := by positivity
  have hR1 : 1 < 2 ^ W := by omega
  have haNR : lhs * rhs < N * 2 ^ W := by
    calc lhs * rhs < N * N := by
          exact mul_lt_mul'' hl hr (Nat.zero_le _) (Nat.zero_le _)
      _ ≤ N * 2 ^ W := Nat.mul_le_mul_left N (le_of_lt hNW)
  have haRR : lhs * rhs < 2 ^ W * 2 ^ W := by
    calc lhs * rhs < N * 2 ^ W := haNR
      _ ≤ 2 ^ W * 2 ^ W := Nat.mul_le_mul_right _ (le_of_lt hNW)
  have hmR : lhs * rhs % 2 ^ W * c.modulo_inv % 2 ^ W < 2 ^ W := Nat.mod_lt _ hR
  set m := lhs * rhs % 2 ^ W * c.modulo_inv % 2 ^ W with hmdef
  have hPRR : m * N < 2 ^ W * 2 ^ W := by
    calc m * N < 2 ^ W * N := by
          exact (Nat.mul_lt_mul_right hN).mpr hmR
      _ ≤ 2 ^ W * 2 ^ W := Nat.mul_le_mul_left _ (le_of_lt hNW)
  have h22 : 2 ^ (2 * W) = 2 ^ W * 2 ^ W := by rw [two_mul, pow_add]
  have f1 : lhs * rhs / 2 ^ W % 2 ^ W = lhs * rhs / 2 ^ W :=
    Nat.mod_eq_of_lt ((Nat.div_lt_iff_lt_mul hR).mpr haRR)
  have f2 : m * N % 2 ^ (2 * W) = m * N := by
    rw [h22]; exact Nat.mod_eq_of_lt hPRR
  have f3 : m * N / 2 ^ W % 2 ^ W = m * N / 2 ^ W :=
    Nat.mod_eq_of_lt ((Nat.div_lt_iff_lt_mul hR).mpr hPRR)
  have hmul : Montgomery.multiply W c lhs rhs =
      ((2 ^ W + lhs * rhs / 2 ^ W % 2 ^ W -
          m * c.modulo % 2 ^ (2 * W) / 2 ^ W % 2 ^ W) % 2 ^ W +
        if lhs * rhs / 2 ^ W % 2 ^ W < m * c.modulo % 2 ^ (2 * W) / 2 ^ W % 2 ^ W
        then c.modulo else 0) % 2 ^ W := rfl
  rw [hmod, f1, f2, f3] at hmul
  set h1 := lhs * rhs / 2 ^ W with hh1def
  set h2 := m * N / 2 ^ W with hh2def
  have hh1 : h1 < N := (Nat.div_lt_iff_lt_mul hR).mpr haNR
  have hh2 : h2 < N := by
    have : m * N < N * 2 ^ W := by
      calc m * N = N * m := mul_comm _ _
        _ < N * 2 ^ W := by exact (Nat.mul_lt_mul_left hN).mpr hmR
    exact (Nat.div_lt_iff_lt_mul hR).mpr this
  have e1 : lhs * rhs = 2 ^ W * h1 + lhs * rhs % 2 ^ W :=
    (Nat.div_add_mod (lhs * rhs) (2 ^ W)).symm
  have key : m * N % 2 ^ W = lhs * rhs % 2 ^ W := by
    have k1 : m * N ≡ lhs * rhs % 2 ^ W * c.modulo_inv * N [MOD 2 ^ W] :=
      Nat.ModEq.mul_right N (Nat.mod_modEq _ _)
    have k2 : lhs * rhs % 2 ^ W * c.modulo_inv * N
        = lhs * rhs % 2 ^ W * (N * c.modulo_inv) := by ring
    have k3 : lhs * rhs % 2 ^ W * (N * c.modulo_inv) ≡ lhs * rhs % 2 ^ W * 1
        [MOD 2 ^ W] := by
      refine Nat.ModEq.mul_left _ ?_
      calc N * c.modulo_inv ≡ N * c.modulo_inv % 2 ^ W [MOD 2 ^ W] :=
            (Nat.mod_modEq _ _).symm
        _ = 1 := hinv
    have k4 : m * N ≡ lhs * rhs % 2 ^ W [MOD 2 ^ W] := by
      calc m * N ≡ lhs * rhs % 2 ^ W * c.modulo_inv * N [MOD 2 ^ W] := k1
        _ = lhs * rhs % 2 ^ W * (N * c.modulo_inv) := k2
        _ ≡ lhs * rhs % 2 ^ W * 1 [MOD 2 ^ W] := k3
        _ = lhs * rhs % 2 ^ W := mul_one _
    calc m * N % 2 ^ W = lhs * rhs % 2 ^ W % 2 ^ W := k4
      _ = lhs * rhs % 2 ^ W := Nat.mod_mod_of_dvd _ dvd_rfl
  have e2 : m * N = 2 ^ W * h2 + lhs * rhs % 2 ^ W := by
    rw [hh2def, ← key]
    exact (Nat.div_add_mod (m * N) (2 ^ W)).symm
  by_cases hcase : h1 < h2
  · have ht : (2 ^ W + h1 - h2) % 2 ^ W = 2 ^ W + h1 - h2 :=
      Nat.mod_eq_of_lt (by omega)
    rw [ht, if_pos hcase] at hmul
    have hres : Montgomery.multiply W c lhs rhs = N + h1 - h2 := by
      rw [hmul, Nat.mod_eq_sub_mod (by omega)]
      have harg : 2 ^ W + h1 - h2 + N - 2 ^ W = N + h1 - h2 := by omega
      rw [harg]
      exact Nat.mod_eq_of_lt (by omega)
    constructor
    · rw [hres]; omega
    · rw [hres]
      have ez3 : ((N + h1 - h2 : ℕ) : ℤ) = (N : ℤ) + h1 - h2 := by
        have : h2 ≤ N + h1 := by omega
        push_cast [this]
        ring
      refine natMod_eq_of_int ?_
      have ez1 : ((lhs * rhs : ℕ) : ℤ)
          = (2 : ℤ) ^ W * h1 + ((lhs * rhs % 2 ^ W : ℕ) : ℤ) := by
        exact_mod_cast congrArg (Nat.cast : ℕ → ℤ) e1
      have ez2 : ((m : ℕ) : ℤ) * N
          = (2 : ℤ) ^ W * h2 + ((lhs * rhs % 2 ^ W : ℕ) : ℤ) := by
        exact_mod_cast congrArg (Nat.cast : ℕ → ℤ) e2
      have hgoal : (((N + h1 - h2) * 2 ^ W : ℕ) : ℤ)
          = (N : ℤ) * ((2 : ℤ) ^ W - m) + ((lhs * rhs : ℕ) : ℤ) := by
        rw [Nat.cast_mul, ez3, two_pow_cast]
        linear_combination ez2 - ez1
      rw [hgoal]
      have hz : (N : ℤ) * ((2 : ℤ) ^ W - m) ≡ 0 [ZMOD (N : ℤ)] :=
        Int.modEq_zero_iff_dvd.mpr ⟨(2 : ℤ) ^ W - m, rfl⟩
      calc (N : ℤ) * ((2 : ℤ) ^ W - m) + ((lhs * rhs : ℕ) : ℤ)
          ≡ 0 + ((lhs * rhs : ℕ) : ℤ) [ZMOD (N : ℤ)] := hz.add_right _
        _ = ((lhs * rhs : ℕ) : ℤ) := by ring
  · have hle : h2 ≤ h1 := le_of_not_lt hcase
    have ht : (2 ^ W + h1 - h2) % 2 ^ W = h1 - h2 := by
      rw [Nat.mod_eq_sub_mod (by omega), show 2 ^ W + h1 - h2 - 2 ^ W = h1 - h2 by omega]
      exact Nat.mod_eq_of_lt (by omega)
    rw [ht, if_neg hcase] at hmul
    have hres : Montgomery.multiply W c lhs rhs = h1 - h2 := by
      rw [hmul, Nat.add_zero]
      exact Nat.mod_eq_of_lt (by omega)
    constructor
    · rw [hres]; omega
    · rw [hres]
      refine natMod_eq_of_int ?_
      have ez3 : ((h1 - h2 : ℕ) : ℤ) = (h1 : ℤ) - h2 := by push_cast [hle]; ring
      have ez1 : ((lhs * rhs : ℕ) : ℤ)
          = (2 : ℤ) ^ W * h1 + ((lhs * rhs % 2 ^ W : ℕ) : ℤ) := by
        exact_mod_cast congrArg (Nat.cast : ℕ → ℤ) e1
      have ez2 : ((m : ℕ) : ℤ) * N
          = (2 : ℤ) ^ W * h2 + ((lhs * rhs % 2 ^ W : ℕ) : ℤ) := by
        exact_mod_cast congrArg (Nat.cast : ℕ → ℤ) e2
      have hgoal : (((h1 - h2) * 2 ^ W : ℕ) : ℤ)
          = ((lhs * rhs : ℕ) : ℤ) - ((m : ℕ) : ℤ) * N := by
        rw [Nat.cast_mul, ez3, two_pow_cast]
        linear_combination ez2 - ez1
      rw [hgoal]
      have hz : ((m : ℕ) : ℤ) * N ≡ 0 [ZMOD (N : ℤ)] :=
        Int.modEq_zero_iff_dvd.mpr ⟨(m : ℤ), mul_comm _ _⟩
      calc ((lhs * rhs : ℕ) : ℤ) - ((m : ℕ) : ℤ) * N
          ≡ ((lhs * rhs : ℕ) : ℤ) - 0 [ZMOD (N : ℤ)] := (Int.ModEq.refl _).sub hz
        _ = ((lhs * rhs : ℕ) : ℤ) := by ring

/-! ### Witness reduction: the trait implementations behave as if each
witness were reduced `mod p` with zero reductions skipped -/

theorem all_witness_eq (W : ℕ) (c : Montgomery) (p s t : ℕ) :
    ∀ ws : List ℕ, (∀ a ∈ ws, 0 < a ∧ a < p) →
      (ws.all fun a => witnessCheck W c p s t a)
        = ws.all fun a => if a % p = 0 then true else witnessCheck W c p s t (a % p) := by
  intro ws h
  induction ws with
  | nil => rfl
  | cons a l ih =>
    have ha := h a (List.mem_cons_self a l)
    have hmod : a % p = a := Nat.mod_eq_of_lt ha.2
    simp only [List.all_cons, hmod]
    rw [if_neg (show ¬a = 0 by omega), ih fun b hb => h b (List.mem_cons_of_mem a hb)]

theorem mrGeneral_eq_reduced (W : ℕ) (ws : List ℕ) (p : ℕ)
    (h : ∀ a ∈ ws, 0 < a ∧ a < p) : mrGeneral W ws p = mrGeneralReduced W ws p :=
  all_witness_eq W (Montgomery.new W p) p (ctzW W (p - 1))
    ((p - 1) / 2 ^ ctzW W (p - 1)) ws h

theorem wit32_eq_reduced (W p : ℕ) (hp : 255 ≤ p) :
    mrGeneral W wit32 p = mrGeneralReduced W wit32 p := by
  refine mrGeneral_eq_reduced W wit32 p ?_
  intro a ha
  simp only [wit32, List.mem_cons, List.not_mem_nil, or_false] at ha
  rcases ha with h | h | h <;> subst h <;> omega

theorem wit64_eq_reduced (p : ℕ) (hodd : p % 2 = 1) (hp : 1795265022 ≤ p) :
    mrGeneral 64 wit64 p = mrGeneralReduced 64 wit64 p := by
  refine mrGeneral_eq_reduced 64 wit64 p ?_
  intro a ha
  simp only [wit64, List.mem_cons, List.not_mem_nil, or_false] at ha
  rcases ha with h | h | h | h | h | h | h <;> subst h <;> omega

theorem isPrimeU8_eq_reduced (p : ℕ) : isPrimeU8 p = isPrimeU8R p := by
  unfold isPrimeU8 isPrimeU8R
  by_cases h1 : p = 1 ∨ p % 2 = 0
  · rw [if_pos h1, if_pos h1]
  · rw [if_neg h1, if_neg h1]
    by_cases h2 : p < 255
    · rw [if_pos h2, if_pos h2]
    · rw [if_neg h2, if_neg h2]
      exact wit32_eq_reduced 8 p (by omega)

theorem isPrimeU16_eq_reduced (p : ℕ) : isPrimeU16 p = isPrimeU16R p := by
  unfold isPrimeU16 isPrimeU16R
  by_cases h1 : p = 1 ∨ p % 2 = 0
  · rw [if_pos h1, if_pos h1]
  · rw [if_neg h1, if_neg h1]
    by_cases h2 : p < 255
    · rw [if_pos h2, if_pos h2]
    · rw [if_neg h2, if_neg h2]
      exact wit32_eq_reduced 16 p (by omega)

theorem isPrimeU32_eq_reduced (p : ℕ) : isPrimeU32 p = isPrimeU32R p := by
  unfold isPrimeU32 isPrimeU32R
  by_cases h1 : p = 1 ∨ p % 2 = 0
  · rw [if_pos h1, if_pos h1]
  · rw [if_neg h1, if_neg h1]
    by_cases h2 : p < 255
    · rw [if_pos h2, if_pos h2]
    · rw [if_neg h2, if_neg h2]
      exact wit32_eq_reduced 32 p (by omega)

theorem isPrimeU64_eq_reduced (p : ℕ) : isPrimeU64 p = isPrimeU64R p := by
  unfold isPrimeU64 isPrimeU64R
  by_cases h1 : p = 1 ∨ p % 2 = 0
  · rw [if_pos h1, if_pos h1]
  · rw [if_neg h1, if_neg h1]
    by_cases h2 : p < 1795265022
    · rw [if_pos h2, if_pos h2]
      exact isPrimeU32_eq_reduced p
    · rw [if_neg h2, if_neg h2]
      have h3 : ¬p < 255 := by omega
      rw [if_neg h3, if_neg h3]
      exact wit64_eq_reduced p (by omega) (by omega)

/-! ### The linear sieve: helper lemmas -/

theorem getD_set_ne (l : List ℕ) (n m v : ℕ) (h : n ≠ m) :
    (l.set n v).getD m 0 = l.getD m 0 := by
  simp [List.getD_eq_getElem?_getD, List.getElem?_set_ne h]

theorem getD_set_self (l : List ℕ) (n v : ℕ) (h : n < l.length) :
    (l.set n v).getD n 0 = v := by
  simp [List.getD_eq_getElem?_getD, List.getElem?_set_self, h]

theorem getD_replicate (n x m : ℕ) (h : m < n) :
    (List.replicate n x).getD m 0 = x := by
  simp [List.getD_eq_getElem?_getD, List.getElem?_replicate, h]

theorem length_innerLoop (LEN i : ℕ) :
    ∀ ps arr, (innerLoop LEN i ps arr).length = arr.length := by
  intro ps
  induction ps with
  | nil => intro arr; rfl
  | cons p l ih =>
    intro arr
    simp only [innerLoop]
    by_cases h : p ≤ arr.getD i 0 ∧ min (p * i) usizeMax < LEN
    · rw [if_pos h, ih, List.length_set]
    · rw [if_neg h]

theorem minFac_two_le {n : ℕ} (h : 2 ≤ n) : 2 ≤ n.minFac :=
  (Nat.minFac_prime (by omega)).two_le

theorem div_minFac_two_le {m : ℕ} (h2 : 2 ≤ m) (hnp : ¬m.Prime) :
    2 ≤ m / m.minFac := by
  have hd := Nat.minFac_dvd m
  have hpos : 0 < m / m.minFac :=
    Nat.div_pos (Nat.minFac_le (by omega)) (Nat.minFac_pos m)
  have hne1 : m / m.minFac ≠ 1 := by
    intro h1
    have hcancel := Nat.div_mul_cancel hd
    rw [h1, one_mul] at hcancel
    exact hnp (hcancel ▸ Nat.minFac_prime (by omega))
  omega

theorem minFac_mul_eq {p i : ℕ} (hp : p.Prime) (hi : 2 ≤ i) (hle : p ≤ i.minFac) :
    (p * i).minFac = p := by
  have hne1 : p * i ≠ 1 := by
    have := Nat.mul_le_mul hp.two_le hi
    omega
  have h1 : (p * i).minFac ≤ p :=
    Nat.minFac_le_of_dvd hp.two_le (Dvd.intro i rfl)
  have hq : (p * i).minFac.Prime := Nat.minFac_prime hne1
  have hdvd : (p * i).minFac ∣ p * i := Nat.minFac_dvd _
  rcases (Nat.Prime.dvd_mul hq).mp hdvd with h | h
  · have := (Nat.prime_dvd_prime_iff_eq hq hp).mp h
    omega
  · have := Nat.minFac_le_of_dvd hq.two_le h
    omega

theorem mem_primesList {n q : ℕ} : q ∈ primesList n ↔ q.Prime ∧ q < n := by
  simp [primesList, List.mem_filter, and_comm]

theorem primesList_pairwise (n : ℕ) : (primesList n).Pairwise (· < ·) :=
  (List.pairwise_lt_range n).filter _

theorem primesList_succ_of_prime {i : ℕ} (h : i.Prime) :
    primesList (i + 1) = primesList i ++ [i] := by
  unfold primesList
  rw [List.range_succ, List.filter_append]
  simp [h]

theorem primesList_succ_of_not_prime {i : ℕ} (h : ¬i.Prime) :
    primesList (i + 1) = primesList i := by
  unfold primesList
  rw [List.range_succ, List.filter_append]
  simp [h]

theorem primesList_two : primesList 2 = [] := by
  unfold primesList
  have h2 : List.range 2 = [0, 1] := by decide
  rw [h2]
  simp [List.filter, Nat.not_prime_zero, Nat.not_prime_one]

theorem marked_mono {i j m : ℕ} (h : i ≤ j) (hm : marked i m) : marked j m := by
  rcases hm with ⟨h1, h2⟩ | ⟨h1, h2, h3⟩
  · exact Or.inl ⟨h1, by omega⟩
  · exact Or.inr ⟨h1, h2, by omega⟩

theorem marked_of_le {LEN i m : ℕ} (h : LEN ≤ i) (hm : m < LEN) :
    marked i m ↔ 2 ≤ m := by
  constructor
  · rintro (⟨h1, _⟩ | ⟨h1, _, _⟩)
    · exact h1.two_le
    · exact h1
  · intro h2
    by_cases hp : m.Prime
    · exact Or.inl ⟨hp, by omega⟩
    · refine Or.inr ⟨h2, hp, ?_⟩
      have := Nat.div_lt_self (show 0 < m by omega) (minFac_two_le h2)
      omega

theorem marked_self {i : ℕ} (hi : 2 ≤ i) : marked i i ↔ ¬i.Prime := by
  constructor
  · rintro (⟨_, hlt⟩ | ⟨_, hnp, _⟩)
    · omega
    · exact hnp
  · intro hnp
    refine Or.inr ⟨hi, hnp, ?_⟩
    exact Nat.div_lt_self (by omega) (minFac_two_le hi)

theorem marked_step {LEN i m : ℕ} (hi : 2 ≤ i) (hm : m < LEN) :
    marked (i + 1) m ↔
      (marked i m ∨ (m.Prime ∧ m = i) ∨
        ∃ p, p.Prime ∧ p ≤ i.minFac ∧ p * i < LEN ∧ m = p * i) := by
  constructor
  · rintro (⟨hp, hlt⟩ | ⟨h2, hnp, hdiv⟩)
    · rcases Nat.lt_succ_iff_lt_or_eq.mp hlt with h | h
      · exact Or.inl (Or.inl ⟨hp, h⟩)
      · exact Or.inr (Or.inl ⟨hp, h⟩)
    · rcases Nat.lt_succ_iff_lt_or_eq.mp hdiv with h | h
      · exact Or.inl (Or.inr ⟨h2, hnp, h⟩)
      · refine Or.inr (Or.inr ⟨m.minFac, Nat.minFac_prime (by omega), ?_, ?_, ?_⟩)
        · have hi2 : 2 ≤ i := by
            have := div_minFac_two_le h2 hnp
            omega
          have hidvd : i ∣ m := by
            rw [← h]
            exact Nat.div_dvd_of_dvd (Nat.minFac_dvd m)
          have hfidvd : i.minFac ∣ m := dvd_trans (Nat.minFac_dvd i) hidvd
          exact Nat.minFac_le_of_dvd (minFac_two_le hi2) hfidvd
        · have heq : m.minFac * i = m := by
            rw [← h]
            exact Nat.mul_div_cancel' (Nat.minFac_dvd m)
          omega
        · rw [← h]
          exact (Nat.mul_div_cancel' (Nat.minFac_dvd m)).symm
  · rintro (hmk | ⟨hp, rfl⟩ | ⟨p, hp, hple, hpiL, rfl⟩)
    · exact marked_mono (by omega) hmk
    · exact Or.inl ⟨hp, by omega⟩
    · have hp2 := hp.two_le
      have hi4 : 2 * 2 ≤ p * i := Nat.mul_le_mul hp.two_le hi
      refine Or.inr ⟨by omega, ?_, ?_⟩
      · exact Nat.not_prime_mul (by omega) (by omega)
      · rw [minFac_mul_eq hp hi hple, Nat.mul_div_cancel_left i hp.pos]
        omega

/-- Content of the array after the inner marking loop: an index holds its
least prime factor exactly when it did before or it is `p * i` for some
listed prime `p` with `p ≤ lpf i` and `p * i < LEN`; all other indices
are untouched. -/
theorem innerLoop_spec (LEN i : ℕ) (hLEN : LEN ≤ usizeMax) (hi2 : 2 ≤ i) :
    ∀ (ps arr : List ℕ) (P : ℕ → Prop),
      arr.length = LEN →
      arr.getD i 0 = i.minFac →
      (∀ p ∈ ps, p.Prime) →
      ps.Pairwise (· < ·) →
      (∀ m, m < LEN → (P m → arr.getD m 0 = m.minFac) ∧
        (¬P m → arr.getD m 0 = usizeMax)) →
      ∀ m, m < LEN →
        ((P m ∨ ∃ p ∈ ps, p ≤ i.minFac ∧ p * i < LEN ∧ m = p * i) →
          (innerLoop LEN i ps arr).getD m 0 = m.minFac) ∧
        (¬(P m ∨ ∃ p ∈ ps, p ≤ i.minFac ∧ p * i < LEN ∧ m = p * i) →
          (innerLoop LEN i ps arr).getD m 0 = usizeMax) := by
  intro ps
  induction ps with
  | nil =>
    intro arr P hlen harri hprime hsort hcontent m hm
    simp only [innerLoop]
    constructor
    · rintro (h | ⟨p, hp, _⟩)
      · exact (hcontent m hm).1 h
      · simp at hp
    · intro h
      exact (hcontent m hm).2 fun hP => h (Or.inl hP)
  | cons p ps ih =>
    intro arr P hlen harri hprime hsort hcontent m hm
    have hpprime : p.Prime := hprime p (List.mem_cons_self _ _)
    have hp2 : 2 ≤ p := hpprime.two_le
    have hlt : ∀ q ∈ ps, p < q := fun q hq => (List.pairwise_cons.mp hsort).1 q hq
    simp only [innerLoop]
    by_cases hcond : p ≤ arr.getD i 0 ∧ min (p * i) usizeMax < LEN
    · rw [if_pos hcond]
      have hplei : p ≤ i.minFac := harri ▸ hcond.1
      have hpiL : p * i < LEN := by
        rcases hcond with ⟨_, hmin⟩
        rcases Nat.le_total (p * i) usizeMax with hle | hle
        · rwa [min_eq_left hle] at hmin
        · rw [min_eq_right hle] at hmin; omega
      have hne : p * i ≠ i := by
        have : 2 * i ≤ p * i := Nat.mul_le_mul_right i hp2
        omega
      have hii : i < LEN := by
        have : i ≤ p * i := Nat.le_mul_of_pos_left i (by omega)
        omega
      have hres := ih (arr.set (p * i) p) (fun m => P m ∨ m = p * i)
        (by rw [List.length_set, hlen])
        (by rw [getD_set_ne _ _ _ _ hne, harri])
        (fun q hq => hprime q (List.mem_cons_of_mem p hq))
        (List.pairwise_cons.mp hsort).2
        (by
          intro n hn
          constructor
          · rintro (hP | rfl)
            · by_cases hnp : n = p * i
              · subst hnp
                rw [getD_set_self _ _ _ (by omega), minFac_mul_eq hpprime hi2 hplei]
              · rw [getD_set_ne _ _ _ _ fun h => hnp h.symm]
                exact (hcontent n hn).1 hP
            · rw [getD_set_self _ _ _ (by omega), minFac_mul_eq hpprime hi2 hplei]
          · intro hn2
            have hnP : ¬P n := fun h => hn2 (Or.inl h)
            have hne2 : n ≠ p * i := fun h => hn2 (Or.inr h)
            rw [getD_set_ne _ _ _ _ fun h => hne2 h.symm]
            exact (hcontent n hn).2 hnP)
        m hm
      have hiff : (P m ∨ ∃ q ∈ p :: ps, q ≤ i.minFac ∧ q * i < LEN ∧ m = q * i) ↔
          ((P m ∨ m = p * i) ∨ ∃ q ∈ ps, q ≤ i.minFac ∧ q * i < LEN ∧ m = q * i) := by
        constructor
        · rintro (hP | ⟨q, hq, hq1, hq2, hq3⟩)
          · exact Or.inl (Or.inl hP)
          · rcases List.mem_cons.mp hq with rfl | hq
            · exact Or.inl (Or.inr hq3)
            · exact Or.inr ⟨q, hq, hq1, hq2, hq3⟩
        · rintro ((hP | rfl) | ⟨q, hq, hq1, hq2, hq3⟩)
          · exact Or.inl hP
          · exact Or.inr ⟨p, List.mem_cons_self _ _, hplei, hpiL, rfl⟩
          · exact Or.inr ⟨q, List.mem_cons_of_mem p hq, hq1, hq2, hq3⟩
      constructor
      · intro h
        exact hres.1 (hiff.mp h)
      · intro h
        exact hres.2 fun h2 => h (hiff.mpr h2)
    · rw [if_neg hcond]
      have hnone : ∀ q ∈ p :: ps, ¬(q ≤ i.minFac ∧ q * i < LEN) := by
        intro q hq ⟨hq1, hq2⟩
        have hpq : p ≤ q := by
          rcases List.mem_cons.mp hq with rfl | hq
          · exact le_refl q
          · exact le_of_lt (hlt q hq)
        have hc1 : p ≤ arr.getD i 0 := by
          rw [harri]; omega
        have hc2 : min (p * i) usizeMax < LEN := by
          have hpi : p * i ≤ q * i := Nat.mul_le_mul_right i hpq
          have : p * i < LEN := by omega
          rw [min_eq_left (by omega)]
          exact this
        exact hcond ⟨hc1, hc2⟩
      constructor
      · rintro (hP | ⟨q, hq, hq1, hq2, _⟩)
        · exact (hcontent m hm).1 hP
        · exact absurd ⟨hq1, hq2⟩ (hnone q hq)
      · intro h
        exact (hcontent m hm).2 fun hP => h (Or.inl hP)

/-- Invariant propagation for the outer sieve loop: starting at outer
index `i` with the `primes` list holding exactly the primes below `i`
and the array content described by `marked i`, the loop ends with every
index at least `2` holding its least prime factor and indices `0`, `1`
still holding the sentinel. -/
theorem sieveGo_spec (LEN : ℕ) (hLEN : LEN ≤ usizeMax) :
    ∀ fuel i arr, 2 ≤ i → LEN ≤ fuel + i → arr.length = LEN →
      (∀ m, m < LEN → (marked i m → arr.getD m 0 = m.minFac) ∧
        (¬marked i m → arr.getD m 0 = usizeMax)) →
      ∀ m, m < LEN →
        (2 ≤ m → (sieveGo LEN fuel i (primesList i) arr).getD m 0 = m.minFac) ∧
        (m < 2 → (sieveGo LEN fuel i (primesList i) arr).getD m 0 = usizeMax) := by
  intro fuel
  induction fuel with
  | zero =>
    intro i arr hi2 hfi hlen hcontent m hm
    simp only [sieveGo]
    have hiff := marked_of_le (show LEN ≤ i by omega) hm
    constructor
    · intro h2
      exact (hcontent m hm).1 (hiff.mpr h2)
    · intro h2
      refine (hcontent m hm).2 fun hmk => ?_
      have := hiff.mp hmk
      omega
  | succ fuel ih =>
    intro i arr hi2 hfi hlen hcontent m hm
    by_cases hiL : i < LEN
    · have hiU : i.minFac < usizeMax := by
        have h1 : i.minFac ≤ i := Nat.minFac_le (by omega)
        omega
      by_cases hip : i.Prime
      · have harrI : arr.getD i 0 = usizeMax := by
          refine (hcontent i hiL).2 fun h => ?_
          exact (marked_self hi2).mp h hip
        simp only [sieveGo, if_pos hiL, if_pos harrI]
        rw [← primesList_succ_of_prime hip]
        have hminFacI : i.minFac = i := (Nat.prime_def_minFac.mp hip).2
        have harrI' : (arr.set i i).getD i 0 = i.minFac := by
          rw [getD_set_self _ _ _ (by omega), hminFacI]
        have hinner := innerLoop_spec LEN i hLEN hi2 (primesList (i + 1)) (arr.set i i)
          (fun n => marked i n ∨ n = i)
          (by rw [List.length_set, hlen]) harrI'
          (fun q hq => (mem_primesList.mp hq).1)
          (primesList_pairwise _)
          (by
            intro n hn
            constructor
            · rintro (hmk | rfl)
              · have hne : i ≠ n := by
                  rintro rfl
                  exact (marked_self hi2).mp hmk hip
                rw [getD_set_ne _ _ _ _ hne]
                exact (hcontent n hn).1 hmk
              · rw [getD_set_self _ _ _ (by omega), hminFacI]
            · intro hn2
              have hne : i ≠ n := fun h => hn2 (Or.inr h.symm)
              rw [getD_set_ne _ _ _ _ hne]
              exact (hcontent n hn).2 fun h => hn2 (Or.inl h))
        have hconv : ∀ n, n < LEN → (marked (i + 1) n ↔
            ((marked i n ∨ n = i) ∨
              ∃ p ∈ primesList (i + 1), p ≤ i.minFac ∧ p * i < LEN ∧ n = p * i)) := by
          intro n hn
          rw [marked_step hi2 hn]
          constructor
          · rintro (hmk | ⟨hp, rfl⟩ | ⟨p, hp, h1, h2, h3⟩)
            · exact Or.inl (Or.inl hmk)
            · exact Or.inl (Or.inr rfl)
            · refine Or.inr ⟨p, mem_primesList.mpr ⟨hp, ?_⟩, h1, h2, h3⟩
              have : p ≤ i := le_trans h1 (Nat.minFac_le (by omega))
              omega
          · rintro ((hmk | rfl) | ⟨p, hp, h1, h2, h3⟩)
            · exact Or.inl hmk
            · exact Or.inr (Or.inl ⟨hip, rfl⟩)
            · exact Or.inr (Or.inr ⟨p, (mem_primesList.mp hp).1, h1, h2, h3⟩)
        refine ih (i + 1) _ (by omega) (by omega)
          (by rw [length_innerLoop, List.length_set, hlen]) ?_ m hm
        intro n hn
        constructor
        · intro hmk
          exact (hinner n hn).1 ((hconv n hn).mp hmk)
        · intro hmk
          exact (hinner n hn).2 fun h => hmk ((hconv n hn).mpr h)
      · have hmarked : marked i i := (marked_self hi2).mpr hip
        have harrI : arr.getD i 0 = i.minFac := (hcontent i hiL).1 hmarked
        have harrNE : ¬arr.getD i 0 = usizeMax := by rw [harrI]; omega
        simp only [sieveGo, if_pos hiL, if_neg harrNE]
        have hinner := innerLoop_spec LEN i hLEN hi2 (primesList i) arr
          (marked i) hlen harrI
          (fun q hq => (mem_primesList.mp hq).1)
          (primesList_pairwise _)
          hcontent
        have hconv : ∀ n, n < LEN → (marked (i + 1) n ↔
            (marked i n ∨
              ∃ p ∈ primesList i, p ≤ i.minFac ∧ p * i < LEN ∧ n = p * i)) := by
          intro n hn
          rw [marked_step hi2 hn]
          constructor
          · rintro (hmk | ⟨hp, rfl⟩ | ⟨p, hp, h1, h2, h3⟩)
            · exact Or.inl hmk
            · exact absurd hp hip
            · refine Or.inr ⟨p, mem_primesList.mpr ⟨hp, ?_⟩, h1, h2, h3⟩
              have hle : p ≤ i := le_trans h1 (Nat.minFac_le (by omega))
              have hne : p ≠ i := by
                rintro rfl
                exact hip hp
              omega
          · rintro (hmk | ⟨p, hp, h1, h2, h3⟩)
            · exact Or.inl hmk
            · exact Or.inr (Or.inr ⟨p, (mem_primesList.mp hp).1, h1, h2, h3⟩)
        have hres := ih (i + 1) (innerLoop LEN i (primesList i) arr) (by omega) (by omega)
          (by rw [length_innerLoop, hlen])
          (by
            intro n hn
            constructor
            · intro hmk
              exact (hinner n hn).1 ((hconv n hn).mp hmk)
            · intro hmk
              exact (hinner n hn).2 fun h => hmk ((hconv n hn).mpr h))
          m hm
        rwa [primesList_succ_of_not_prime hip] at hres
    · simp only [sieveGo, if_neg hiL]
      have hiff := marked_of_le (show LEN ≤ i by omega) hm
      constructor
      · intro h2
        exact (hcontent m hm).1 (hiff.mpr h2)
      · intro h2
        refine (hcontent m hm).2 fun hmk => ?_
        have := hiff.mp hmk
        omega

/-- Final content of the array built by `LinearSieve::new`:
`arr[m] = lpf m` for `2 ≤ m < LEN`, and the sentinel stays at indices
`0` and `1`. -/
theorem sieveNew_spec (LEN : ℕ) (hLEN : LEN ≤ usizeMax) :
    ∀ m, m < LEN →
      (2 ≤ m → (sieveNew LEN).getD m 0 = m.minFac) ∧
      (m < 2 → (sieveNew LEN).getD m 0 = usizeMax) := by
  intro m hm
  have hbase : ∀ n, n < LEN →
      (marked 2 n → (List.replicate LEN usizeMax).getD n 0 = n.minFac) ∧
      (¬marked 2 n → (List.replicate LEN usizeMax).getD n 0 = usizeMax) := by
    intro n hn
    constructor
    · rintro (⟨hp, hlt⟩ | ⟨h2, hnp, hdiv⟩)
      · have := hp.two_le
        omega
      · have := div_minFac_two_le h2 hnp
        omega
    · intro _
      exact getD_replicate _ _ _ hn
  have h := sieveGo_spec LEN hLEN LEN 2 (List.replicate LEN usizeMax)
    (le_refl 2) (by omega) (List.length_replicate _ _) hbase m hm
  rwa [show sieveNew LEN = sieveGo LEN LEN 2 (primesList 2) (List.replicate LEN usizeMax) by
    rw [primesList_two]; rfl]

/-- With the sieve invariant in hand, `LinearSieve::factors` produces
exactly Mathlib's `Nat.primeFactorsList` (and its fuel never runs out). -/
theorem factorsGo_eq (LEN : ℕ) (hLEN : LEN ≤ usizeMax) :
    ∀ v, v < LEN → ∀ fuel, v ≤ fuel →
      factorsGo (sieveNew LEN) fuel v = v.primeFactorsList := by
  intro v
  induction v using Nat.strong_induction_on with
  | _ v ih =>
    intro hv fuel hfuel
    by_cases h2 : 2 ≤ v
    · obtain ⟨f, rfl⟩ : ∃ f, fuel = f + 1 := ⟨fuel - 1, by omega⟩
      have harr : (sieveNew LEN).getD v 0 = v.minFac :=
        (sieveNew_spec LEN hLEN v hv).1 h2
      have hlt : v / v.minFac < v :=
        Nat.div_lt_self (by omega) (minFac_two_le h2)
      obtain ⟨k, rfl⟩ : ∃ k, v = k + 2 := ⟨v - 2, by omega⟩
      simp only [factorsGo, if_pos (show 1 < k + 2 by omega), harr]
      rw [Nat.primeFactorsList_add_two]
      rw [ih ((k + 2) / (k + 2).minFac) hlt (by omega) f (by omega)]
    · obtain ⟨f, rfl⟩ | rfl : (∃ f, fuel = f + 1) ∨ fuel = 0 := by
        rcases fuel with _ | f
        · exact Or.inr rfl
        · exact Or.inl ⟨f, rfl⟩
      · have hv2 : ¬1 < v := by omega
        simp only [factorsGo, if_neg hv2]
        interval_cases v
        · rw [Nat.primeFactorsList_zero]
        · rw [Nat.primeFactorsList_one]
      · have hv0 : v = 0 := by omega
        subst hv0
        simp only [factorsGo]
        rw [Nat.primeFactorsList_zero]

/-! ### Remaining helper lemmas for the claims -/

theorem ctzGo_pow_le : ∀ fuel n : ℕ, 0 < n → 2 ^ ctzGo fuel n ≤ n := by
  intro fuel
  induction fuel with
  | zero =>
    intro n hn
    simp only [ctzGo, pow_zero]
    omega
  | succ fuel ih =>
    intro n hn
    simp only [ctzGo]
    by_cases h : n % 2 = 1 ∨ n = 0
    · rw [if_pos h, pow_zero]
      omega
    · rw [if_neg h, pow_succ]
      have h2 : n % 2 = 0 := by omega
      have hpos : 0 < n / 2 := by omega
      have := ih (n / 2) hpos
      omega

theorem powAux_zero_exp (W : ℕ) (c : Montgomery) :
    ∀ fuel res val, powAux W c fuel res val 0 = res := by
  intro fuel res val
  cases fuel with
  | zero => rfl
  | succ f => simp [powAux]

/-- Fuel-stability of the binary-exponentiation loop: once the fuel
covers the bit length of the exponent, adding more fuel does not change
the result — i.e. the fueled model has genuinely run the `while exp > 0`
loop of `Montgomery::pow` to completion. -/
theorem powAux_fuel_stable (W : ℕ) (c : Montgomery) :
    ∀ fuel exp, exp < 2 ^ fuel → ∀ fuel' res val, fuel ≤ fuel' →
      powAux W c fuel' res val exp = powAux W c fuel res val exp := by
  intro fuel
  induction fuel with
  | zero =>
    intro exp hexp fuel' res val hle
    have h0 : exp = 0 := by simpa using hexp
    subst h0
    rw [powAux_zero_exp, powAux_zero_exp]
  | succ fuel ih =>
    intro exp hexp fuel' res val hle
    obtain ⟨f', rfl⟩ : ∃ f', fuel' = f' + 1 := ⟨fuel' - 1, by omega⟩
    by_cases h0 : exp = 0
    · subst h0
      rw [powAux_zero_exp, powAux_zero_exp]
    · simp only [powAux, if_neg h0]
      have h2p : 2 ^ (fuel + 1) = 2 * 2 ^ fuel := by ring
      have hhalf : exp / 2 < 2 ^ fuel := by omega
      exact ih (exp / 2) hhalf f' _ _ (by omega)

theorem iterate_half_eq_div_pow (j : ℕ) :
    ∀ e : ℕ, (fun e => e / 2)^[j] e = e / 2 ^ j := by
  induction j with
  | zero =>
    intro e
    simp
  | succ j ihj =>
    intro e
    rw [Function.iterate_succ_apply, ihj, Nat.div_div_eq_div_mul, pow_succ,
      mul_comm (2 ^ j) 2]

/-- Exit certificate for the `exp >>= 1` update of `Montgomery::pow`:
an exponent below `2 ^ W` reaches the loop's exit condition `exp = 0`
within `W` halvings. -/
theorem halving_cert (W exp : ℕ) (h : exp < 2 ^ W) :
    ∃ j, j ≤ W ∧ (fun e => e / 2)^[j] exp = 0 :=
  ⟨W, le_refl W, by rw [iterate_half_eq_div_pow]; exact Nat.div_eq_of_lt h⟩

/-! ### The claims -/

/-- Claim C2: after `LinearSieve::<LEN>::new()` returns, for every index
`i` with `2 <= i < LEN`, `arr[i] == i` holds iff `i` is prime (so
`is_prime(i)` decides primality), and for every composite `i` in that
range `arr[i]` is a prime that divides `i` and is at most every prime
divisor of `i` — the smallest prime dividing `i`. -/
theorem claim_c2_sieve_invariant (LEN : ℕ) (hLEN : LEN ≤ usizeMax)
    (i : ℕ) (h2 : 2 ≤ i) (hi : i < LEN) :
    ((sieveNew LEN).getD i 0 = i ↔ i.Prime) ∧
      (sieveIsPrime LEN i = true ↔ i.Prime) ∧
      (¬i.Prime →
        ((sieveNew LEN).getD i 0).Prime ∧ (sieveNew LEN).getD i 0 ∣ i ∧
          ∀ q, q.Prime → q ∣ i → (sieveNew LEN).getD i 0 ≤ q) := by
  have harr : (sieveNew LEN).getD i 0 = i.minFac :=
    (sieveNew_spec LEN hLEN i hi).1 h2
  have hiff : (sieveNew LEN).getD i 0 = i ↔ i.Prime := by
    rw [harr]
    constructor
    · intro h
      exact Nat.prime_def_minFac.mpr ⟨h2, h⟩
    · intro h
      exact (Nat.prime_def_minFac.mp h).2
  refine ⟨hiff, ?_, ?_⟩
  · rw [← hiff]
    simp [sieveIsPrime]
  · intro hnp
    rw [harr]
    exact ⟨Nat.minFac_prime (by omega), Nat.minFac_dvd i,
      fun q hq hqd => Nat.minFac_le_of_dvd hq.two_le hqd⟩

/-- Witness for C2 at `LEN = 10`, `i = 9` (a composite whose least prime
factor is `3`). -/
theorem claim_c2_sieve_invariant_witness :
    ((sieveNew 10).getD 9 0 = 9 ↔ Nat.Prime 9) ∧
      (sieveIsPrime 10 9 = true ↔ Nat.Prime 9) ∧
      (¬Nat.Prime 9 →
        ((sieveNew 10).getD 9 0).Prime ∧ (sieveNew 10).getD 9 0 ∣ 9 ∧
          ∀ q, q.Prime → q ∣ 9 → (sieveNew 10).getD 9 0 ≤ q) :=
  claim_c2_sieve_invariant 10 (by decide) 9 (by decide) (by decide)

/-- Claim C3: for every odd modulus `N` representable in `W` bits and
inputs `a, b` below `N`, `Montgomery::multiply` returns a value in
`[0, N)` congruent to `a * b * R⁻¹ (mod N)` (stated divisor-free as
`result * R ≡ a * b (mod N)` with `R = 2 ^ W`); the wrapping
computation's single conditional correction keeps the result in range. -/
theorem claim_c3_multiply_correct (W N a b : ℕ) (hodd : N % 2 = 1)
    (hNW : N < 2 ^ W) (ha : a < N) (hb : b < N) :
    Montgomery.multiply W (Montgomery.new W N) a b < N ∧
      Montgomery.multiply W (Montgomery.new W N) a b * 2 ^ W % N = a * b % N := by
  have hW : 0 < W := by
    by_contra h
    have hw0 : W = 0 := by omega
    subst hw0
    norm_num at hNW
    omega
  exact multiply_spec W (Montgomery.new W N) N a b rfl
    (newtonInv_exit W N hW hodd) (by omega) hNW ha hb

/-- Witness for C3 at `W = 8`, `N = 7`, `a = 3`, `b = 5`. -/
theorem claim_c3_multiply_correct_witness :
    Montgomery.multiply 8 (Montgomery.new 8 7) 3 5 < 7 ∧
      Montgomery.multiply 8 (Montgomery.new 8 7) 3 5 * 2 ^ 8 % 7 = 3 * 5 % 7 :=
  claim_c3_multiply_correct 8 7 3 5 (by decide) (by decide) (by decide) (by decide)

/-- Claim C4: for every odd modulus `N` representable in `W` bits,
`Montgomery::new(N)` yields `r = 2 ^ W mod N`, `r2 = r ^ 2 mod N`, and a
`modulo_inv` with `N * modulo_inv ≡ 1 (mod 2 ^ W)`; the Newton loop
started at `inv = N` reaches this fixed point. -/
theorem claim_c4_new_correct (W N : ℕ) (hodd : N % 2 = 1) (hNW : N < 2 ^ W) :
    (Montgomery.new W N).modulo = N ∧
      (Montgomery.new W N).r = 2 ^ W % N ∧
      (Montgomery.new W N).r2 = (Montgomery.new W N).r ^ 2 % N ∧
      N * (Montgomery.new W N).modulo_inv % 2 ^ W = 1 := by
  have hW : 0 < W := by
    by_contra h
    have hw0 : W = 0 := by omega
    subst hw0
    norm_num at hNW
    omega
  refine ⟨rfl, rfl, ?_, newtonInv_exit W N hW hodd⟩
  show (2 ^ (2 * W) - N) % 2 ^ (2 * W) % N = (2 ^ W % N) ^ 2 % N
  have hN1 : 1 ≤ N := by omega
  have hle : N ≤ 2 ^ (2 * W) := by
    calc N ≤ 2 ^ W := le_of_lt hNW
      _ ≤ 2 ^ (2 * W) := Nat.pow_le_pow_right (by norm_num) (by omega)
  have h1 : (2 ^ (2 * W) - N) % 2 ^ (2 * W) = 2 ^ (2 * W) - N :=
    Nat.mod_eq_of_lt (by omega)
  have h2 : (2 ^ (2 * W) - N) % N = 2 ^ (2 * W) % N := by
    conv_rhs => rw [show 2 ^ (2 * W) = 2 ^ (2 * W) - N + N by omega]
    rw [Nat.add_mod_right]
  have h3 : 2 ^ (2 * W) = (2 ^ W) ^ 2 := by
    rw [← pow_mul, mul_comm]
  rw [h1, h2, h3, Nat.pow_mod]

/-- Witness for C4 at `W = 8`, `N = 7`. -/
theorem claim_c4_new_correct_witness :
    (Montgomery.new 8 7).modulo = 7 ∧
      (Montgomery.new 8 7).r = 2 ^ 8 % 7 ∧
      (Montgomery.new 8 7).r2 = (Montgomery.new 8 7).r ^ 2 % 7 ∧
      7 * (Montgomery.new 8 7).modulo_inv % 2 ^ 8 = 1 :=
  claim_c4_new_correct 8 7 (by decide) (by decide)

/-- Claim C5: whenever the trivial filter `p == 1 || p & 1 == 0` does
not return early, the modulus handed to the Montgomery engine is odd and
at least `3`; for such a modulus the Newton `while` loop reaches its
exit condition `N * inv ≡ 1 (mod 2 ^ W)` within `W` iterations (so it
terminates, and `new`'s fueled model exits with the condition
satisfied); the binary-exponentiation loop of `Montgomery::pow` on the
odd part `t = (p-1) >> s` reaches its exit condition `exp = 0` within
`W` halvings, and its fueled model is stable under any extra fuel (so
that loop, too, has genuinely run to completion); and the Miller–Rabin
squaring count `s = (p-1).trailing_zeros()` is strictly below the
width, bounding every squaring loop. -/
theorem claim_c5_termination (W p : ℕ) (hpW : p < 2 ^ W)
    (hgen : ¬(p = 1 ∨ p % 2 = 0)) :
    (p % 2 = 1 ∧ 3 ≤ p) ∧
      (∃ j, j ≤ W ∧ p * (newtonStep W p)^[j] p % 2 ^ W = 1) ∧
      p * (Montgomery.new W p).modulo_inv % 2 ^ W = 1 ∧
      (∃ j, j ≤ W ∧
        (fun e => e / 2)^[j] ((p - 1) / 2 ^ ctzW W (p - 1)) = 0) ∧
      (∀ res val fuel, W ≤ fuel →
        powAux W (Montgomery.new W p) fuel res val ((p - 1) / 2 ^ ctzW W (p - 1)) =
          powAux W (Montgomery.new W p) W res val ((p - 1) / 2 ^ ctzW W (p - 1))) ∧
      (∀ val fuel, W ≤ fuel →
        powAux W (Montgomery.new W p) fuel (Montgomery.new W p).r val
            ((p - 1) / 2 ^ ctzW W (p - 1)) =
          Montgomery.pow W (Montgomery.new W p) val ((p - 1) / 2 ^ ctzW W (p - 1))) ∧
      ctzW W (p - 1) < W := by
  push_neg at hgen
  have hodd : p % 2 = 1 := by omega
  have hp3 : 3 ≤ p := by omega
  have hW : 0 < W := by
    by_contra h
    have hw0 : W = 0 := by omega
    subst hw0
    norm_num at hpW
    omega
  have htW : (p - 1) / 2 ^ ctzW W (p - 1) < 2 ^ W := by
    have hd : (p - 1) / 2 ^ ctzW W (p - 1) ≤ p - 1 := Nat.div_le_self _ _
    omega
  refine ⟨⟨hodd, hp3⟩, newton_cert W p hW hodd, newtonInv_exit W p hW hodd,
    halving_cert W _ htW,
    fun res val fuel hf => powAux_fuel_stable W (Montgomery.new W p) W _ htW fuel res val hf,
    fun val fuel hf => powAux_fuel_stable W (Montgomery.new W p) W _ htW fuel
      (Montgomery.new W p).r val hf, ?_⟩
  have hne : ¬(p - 1) = 0 := by omega
  rw [ctzW, if_neg hne]
  have hle := ctzGo_pow_le W (p - 1) (by omega)
  by_contra h
  have hge : W ≤ ctzGo W (p - 1) := by omega
  have := Nat.pow_le_pow_right (show 1 ≤ 2 by norm_num) hge
  omega

/-- Witness for C5 at `W = 8`, `p = 9`. -/
theorem claim_c5_termination_witness :
    ((9 : ℕ) % 2 = 1 ∧ 3 ≤ 9) ∧
      (∃ j, j ≤ 8 ∧ 9 * (newtonStep 8 9)^[j] 9 % 2 ^ 8 = 1) ∧
      9 * (Montgomery.new 8 9).modulo_inv % 2 ^ 8 = 1 ∧
      (∃ j, j ≤ 8 ∧
        (fun e => e / 2)^[j] ((9 - 1) / 2 ^ ctzW 8 (9 - 1)) = 0) ∧
      (∀ res val fuel, 8 ≤ fuel →
        powAux 8 (Montgomery.new 8 9) fuel res val ((9 - 1) / 2 ^ ctzW 8 (9 - 1)) =
          powAux 8 (Montgomery.new 8 9) 8 res val ((9 - 1) / 2 ^ ctzW 8 (9 - 1))) ∧
      (∀ val fuel, 8 ≤ fuel →
        powAux 8 (Montgomery.new 8 9) fuel (Montgomery.new 8 9).r val
            ((9 - 1) / 2 ^ ctzW 8 (9 - 1)) =
          Montgomery.pow 8 (Montgomery.new 8 9) val ((9 - 1) / 2 ^ ctzW 8 (9 - 1))) ∧
      ctzW 8 (9 - 1) < 8 :=
  claim_c5_termination 8 9 (by decide) (by decide)

/-- Claim C6: every trait implementation of `is_prime` behaves exactly
as if, in the general Montgomery-based case, each witness of the width's
table were first reduced `mod p` with a zero reduction skipped before
conversion to Montgomery form (the `R` variants perform that reduction
and skip literally); the standalone const `is_prime` performs the
reduction and the skip by definition. -/
theorem claim_c6_witness_reduction (p : ℕ) :
    isPrimeU8 p = isPrimeU8R p ∧ isPrimeU16 p = isPrimeU16R p ∧
      isPrimeU32 p = isPrimeU32R p ∧ isPrimeU64 p = isPrimeU64R p ∧
      constIsPrime p =
        (if p = 1 ∨ p % 2 = 0 then p == 2 else mrGeneralReduced 64 wit64 p) :=
  ⟨isPrimeU8_eq_reduced p, isPrimeU16_eq_reduced p, isPrimeU32_eq_reduced p,
    isPrimeU64_eq_reduced p, rfl⟩

/-- Counterexample to claim C7 as stated: for `LEN = 4` the in-range
index `1`, distinct from `0`, also permanently retains the sentinel
`usize::MAX` (so index `0` is not the only such index, and index `1`
does not end up holding a prime-factor value). -/
theorem claim_c7_counterexample :
    (sieveNew 4).getD 1 0 = usizeMax ∧ (1 : ℕ) ≠ 0 ∧ (1 : ℕ) < 4 := by
  decide

/-- Claim C7 (amended): after `LinearSieve::<LEN>::new()` (with
`LEN >= 2`), indices `0` and `1` are exactly the in-range indices whose
entries permanently retain `usize::MAX`; every index in `[2, LEN)` ends
up holding a prime factor of itself (hence not the sentinel), and
`is_prime(0)`, `is_prime(1)` are false. -/
theorem claim_c7_amended (LEN : ℕ) (hLEN : LEN ≤ usizeMax) (h2 : 2 ≤ LEN) :
    (sieveNew LEN).getD 0 0 = usizeMax ∧ (sieveNew LEN).getD 1 0 = usizeMax ∧
      (∀ i, 2 ≤ i → i < LEN → ((sieveNew LEN).getD i 0).Prime ∧
        (sieveNew LEN).getD i 0 ∣ i ∧ (sieveNew LEN).getD i 0 ≠ usizeMax) ∧
      sieveIsPrime LEN 0 = false ∧ sieveIsPrime LEN 1 = false := by
  have h0 : (sieveNew LEN).getD 0 0 = usizeMax :=
    (sieveNew_spec LEN hLEN 0 (by omega)).2 (by omega)
  have h1 : (sieveNew LEN).getD 1 0 = usizeMax :=
    (sieveNew_spec LEN hLEN 1 (by omega)).2 (by omega)
  have hM : 2 ≤ usizeMax := by decide
  refine ⟨h0, h1, ?_, ?_, ?_⟩
  · intro i hi2 hiL
    have harr : (sieveNew LEN).getD i 0 = i.minFac :=
      (sieveNew_spec LEN hLEN i hiL).1 hi2
    rw [harr]
    have hle : i.minFac ≤ i := Nat.minFac_le (by omega)
    exact ⟨Nat.minFac_prime (by omega), Nat.minFac_dvd i, by omega⟩
  · show ((sieveNew LEN).getD 0 0 == 0) = false
    rw [h0]
    decide
  · show ((sieveNew LEN).getD 1 0 == 1) = false
    rw [h1]
    decide

/-- Witness for the amended C7 at `LEN = 5`. -/
theorem claim_c7_amended_witness :
    (sieveNew 5).getD 0 0 = usizeMax ∧ (sieveNew 5).getD 1 0 = usizeMax ∧
      (∀ i, 2 ≤ i → i < 5 → ((sieveNew 5).getD i 0).Prime ∧
        (sieveNew 5).getD i 0 ∣ i ∧ (sieveNew 5).getD i 0 ≠ usizeMax) ∧
      sieveIsPrime 5 0 = false ∧ sieveIsPrime 5 1 = false :=
  claim_c7_amended 5 (by decide) (by decide)

/-- Claim C8: for `2 <= v < LEN` the sequence produced by
`LinearSieve::factors(v)` consists of primes, is non-decreasing and
multiplies back to `v`; for `v < 2` it is empty. -/
theorem claim_c8_factors (LEN : ℕ) (hLEN : LEN ≤ usizeMax) (v : ℕ) (hv : v < LEN) :
    (2 ≤ v → (factors LEN v).prod = v ∧
      List.Sorted (· ≤ ·) (factors LEN v) ∧
      ∀ q ∈ factors LEN v, q.Prime) ∧
    (v < 2 → factors LEN v = []) := by
  have heq : factors LEN v = v.primeFactorsList :=
    factorsGo_eq LEN hLEN v hv v (le_refl v)
  constructor
  · intro h2
    rw [heq]
    exact ⟨Nat.prod_primeFactorsList (by omega), Nat.primeFactorsList_sorted v,
      fun q hq => Nat.prime_of_mem_primeFactorsList hq⟩
  · intro h2
    rw [heq]
    interval_cases v
    · exact Nat.primeFactorsList_zero
    · exact Nat.primeFactorsList_one

/-- Witness for C8 at `LEN = 10`, `v = 8`. -/
theorem claim_c8_factors_witness :
    (2 ≤ 8 → (factors 10 8).prod = 8 ∧
      List.Sorted (· ≤ ·) (factors 10 8) ∧
      ∀ q ∈ factors 10 8, q.Prime) ∧
    ((8 : ℕ) < 2 → factors 10 8 = []) :=
  claim_c8_factors 10 (by decide) 8 (by decide)

end PrimalityTest
